import Mathlib

/-!
Shallow embedding of `src/lib/Utils.js` of the local-echo repository.

Strings are modelled as `List Char`; JavaScript string indices are list
indices.  Each definition mirrors one function of the source file and keeps
its name.  The external `parse` collaborator (the shell-quote package) is not
part of the repository's sources and is modelled from the spec.
-/

/-! ## Character widths (`calcWidth`) -/

/-- A code-point interval test, used for the regex character classes of
`calcWidth`. -/
def inRanges (n : Nat) (rs : List (Nat × Nat)) : Bool :=
  rs.any fun r => decide (r.1 ≤ n) && decide (n ≤ r.2)

/-- The wide-character class of `calcWidth` (the third regex), range for
range. -/
def wideRanges : List (Nat × Nat) :=
  [(0x1100, 0x115F), (0x11A3, 0x11A7), (0x11FA, 0x11FF), (0x2329, 0x232A),
   (0x2E80, 0x2E99), (0x2E9B, 0x2EF3), (0x2F00, 0x2FD5), (0x2FF0, 0x2FFB),
   (0x3000, 0x303E), (0x3041, 0x3096), (0x3099, 0x30FF), (0x3105, 0x312F),
   (0x3131, 0x318E), (0x3190, 0x31BA), (0x31C0, 0x31E3), (0x31F0, 0x31FF),
   (0x3200, 0x321E), (0x3220, 0x3247), (0x3250, 0x32FE), (0x3300, 0x33FF),
   (0x3400, 0x4DBF), (0x4E00, 0x9FFC), (0xA000, 0xA48C), (0xA490, 0xA4C6),
   (0xA960, 0xA97C), (0xAC00, 0xD7A3), (0xF900, 0xFA6D), (0xFA70, 0xFAD9),
   (0xFE10, 0xFE19), (0xFE30, 0xFE52), (0xFE54, 0xFE66), (0xFE68, 0xFE6B),
   (0xFF01, 0xFF60), (0xFFE0, 0xFFE6)]

/-- Width of one character, following the cascade of regex tests in
`calcWidth`: zero-width class, then the special (Hebrew and presentation
forms) class, then the wide class, else 1. -/
def charWidth (c : Char) : Nat :=
  if inRanges c.toNat [(0x200B, 0x200D), (0xFEFF, 0xFEFF)] then 0
  else if inRanges c.toNat [(0x0591, 0x05F4), (0xFB1D, 0xFBF4)] then 0
  else if inRanges c.toNat wideRanges then 2
  else 1

/-- `calcWidth(str)`: the loop `acc += width of str.charAt(i)`. -/
def calcWidth (str : List Char) : Nat :=
  str.foldl (fun acc c => acc + charWidth c) 0

/-! ## ANSI stripping (`removeANSI`)

The source is `input.replace(/\x1B\[([0-9]{1,2}(;[0-9]{1,2})?)?[m|K]/g, '')`.
The regex is embedded with its JavaScript backtracking order: the quantifier
`{1,2}` tries two digits before one, each optional group tries presence
before absence, and the character class `[m|K]` holds the three characters
`m`, `|` and `K`. -/

def isDigitChar (c : Char) : Bool := decide ('0' ≤ c) && decide (c ≤ '9')

/-- A character of the terminating class `[m|K]` (note that the class
contains the literal bar). -/
def isTermChar (c : Char) : Bool := c == 'm' || c == '|' || c == 'K'

/-- Length consumed by the final `[m|K]` at the head of `cs`. -/
def termLen (cs : List Char) : Option Nat :=
  match cs with
  | t :: _ => if isTermChar t then some 1 else none
  | [] => none

/-- Length consumed by `(;[0-9]{1,2})?` when present, plus the terminator:
`;dd` before `;d`, as the greedy `{1,2}` backtracks. -/
def semiLen (cs : List Char) : Option Nat :=
  match cs with
  | ';' :: c :: rest =>
    if isDigitChar c then
      (match rest with
       | x :: rest2 =>
         if isDigitChar x then (termLen rest2).map (fun tl => 3 + tl) else none
       | [] => none).orElse
      (fun _ => (termLen rest).map (fun tl => 2 + tl))
    else none
  | _ => none

/-- Length consumed by `[0-9]{1,2}(;[0-9]{1,2})?` plus the terminator: two
main digits tried before one, the semicolon group tried before a bare
terminator. -/
def mainLen (cs : List Char) : Option Nat :=
  match cs with
  | a :: rest =>
    if isDigitChar a then
      (match rest with
       | b :: rest2 =>
         if isDigitChar b then
           ((semiLen rest2).orElse (fun _ => termLen rest2)).map (fun k => 2 + k)
         else none
       | [] => none).orElse
      (fun _ => ((semiLen rest).orElse (fun _ => termLen rest)).map (fun k => 1 + k))
    else none
  | [] => none

/-- Length of the regex match starting at the head of `cs`, `none` when the
regex does not match there.  The whole parameter group is optional, so a bare
`ESC [ term` matches. -/
def ansiMatchLen (cs : List Char) : Option Nat :=
  match cs with
  | c :: d :: rest =>
    if c == '\x1B' && d == '[' then
      ((mainLen rest).orElse (fun _ => termLen rest)).map (fun k => 2 + k)
    else none
  | _ => none

/-- Global replace with the empty string: scan left to right, drop a match
where one starts, otherwise keep the character.  Structural recursion on a
fuel that starts at the input's length; every step consumes at least one
character (a match is at least three characters long), so the fuel never
runs out and the zero-fuel branch only ever sees the empty list. -/
def removeANSIFuel : Nat → List Char → List Char
  | 0, cs => cs
  | _ + 1, [] => []
  | fuel + 1, c :: rest =>
    match ansiMatchLen (c :: rest) with
    | some L => removeANSIFuel fuel (List.drop L (c :: rest))
    | none => c :: removeANSIFuel fuel rest

/-- `removeANSI(input)`. -/
def removeANSI (input : List Char) : List Char :=
  removeANSIFuel input.length input

/-! ## Cursor geometry (`offsetToColRow`, `countLines`) -/

/-- JavaScript `charAt`: a one-character string in range, the empty string
out of range. -/
def charAt (s : List Char) (i : Nat) : List Char :=
  match s[i]? with
  | some c => [c]
  | none => []

/-- One iteration of the walk in `offsetToColRow`: newline resets the column
and bumps the row; otherwise the column grows by the character's width and a
column that exceeds `maxCols` wraps to 0 with the row bumped. -/
def colRowStep (maxCols : Nat) (rc : Nat × Nat) (chr : List Char) : Nat × Nat :=
  if chr = ['\n'] then (rc.1 + 1, 0)
  else
    let col := rc.2 + calcWidth chr
    if maxCols < col then (rc.1 + 1, 0) else (rc.1, col)

/-- The loop of `offsetToColRow` run for `n` iterations over the stripped
string `s`, from `row = 0, col = 0`. -/
def colRowWalk (maxCols : Nat) (s : List Char) (n : Nat) : Nat × Nat :=
  (List.range n).foldl (fun rc i => colRowStep maxCols rc (charAt s i)) (0, 0)

/-- `offsetToColRow(input, offset, maxCols)`: the offset is first shifted by
the escape-length delta (raw length minus stripped length), then the walk
runs while `i < offset`; a negative bound runs zero iterations, matching the
JavaScript `for` loop. -/
def offsetToColRow (input : List Char) (offset : Int) (maxCols : Nat) : Nat × Nat :=
  let stripped := removeANSI input
  let offn := (offset - ((input.length : Int) - (stripped.length : Int))).toNat
  colRowWalk maxCols stripped offn

/-- `countLines(input, maxCols)`. -/
def countLines (input : List Char) (maxCols : Nat) : Nat :=
  (offsetToColRow input input.length maxCols).1 + 1

/-! ## Word boundaries (`wordBoundaries`, `closestLeftBoundary`,
`closestRightBoundary`) -/

/-- A `\w` character: `[A-Za-z0-9_]`. -/
def isWordChar (c : Char) : Bool :=
  (decide ('a' ≤ c) && decide (c ≤ 'z')) || (decide ('A' ≤ c) && decide (c ≤ 'Z')) ||
  (decide ('0' ≤ c) && decide (c ≤ '9')) || c == '_'

/-- Start indices of the maximal `\w+` runs, in increasing order: the
`match.index` values pushed by the `rx.exec` loop with `leftSide` true. -/
def wordStarts (input : List Char) : List Nat :=
  (List.range input.length).filter fun i =>
    isWordChar (input.getD i ' ') && (i == 0 || !isWordChar (input.getD (i - 1) ' '))

/-- End indices (`match.index + match[0].length`) of the maximal `\w+` runs,
in increasing order: pushed with `leftSide` false. -/
def wordEnds (input : List Char) : List Nat :=
  (List.range (input.length + 1)).filter fun j =>
    (j != 0) && isWordChar (input.getD (j - 1) ' ') &&
      (j == input.length || !isWordChar (input.getD j ' '))

/-- `wordBoundaries(input, leftSide)`. -/
def wordBoundaries (input : List Char) (leftSide : Bool) : List Nat :=
  if leftSide then wordStarts input else wordEnds input

/-- `closestLeftBoundary(input, offset)`: the boundaries reversed, the first
one `< offset`, else 0. -/
def closestLeftBoundary (input : List Char) (offset : Int) : Nat :=
  (((wordBoundaries input true).reverse.find? fun (x : Nat) => decide ((x : Int) < offset)).getD 0)

/-- `closestRightBoundary(input, offset)`: the first boundary `> offset`,
else the input's length. -/
def closestRightBoundary (input : List Char) (offset : Int) : Nat :=
  (((wordBoundaries input false).find? fun (x : Nat) => decide (offset < (x : Int))).getD input.length)

/-! ## Incomplete-input heuristics (`isIncompleteInput`,
`hasTailingWhitespace`) -/

/-- The JavaScript `String.prototype.trim` whitespace class: ECMAScript
WhiteSpace (tab, VT, FF, space, NBSP, BOM and the Unicode space separators)
and LineTerminator (LF, CR, LS, PS). -/
def isJsWhitespace (c : Char) : Bool :=
  c == ' ' || c == '\t' || c == '\n' || c == '\r' || c == '\x0b' || c == '\x0c' ||
  c.toNat == 0xA0 || c.toNat == 0x1680 ||
  (decide (0x2000 ≤ c.toNat) && decide (c.toNat ≤ 0x200A)) ||
  c.toNat == 0x2028 || c.toNat == 0x2029 || c.toNat == 0x202F ||
  c.toNat == 0x205F || c.toNat == 0x3000 || c.toNat == 0xFEFF

/-- `input.trim()`. -/
def trim (s : List Char) : List Char :=
  ((s.dropWhile isJsWhitespace).reverse.dropWhile isJsWhitespace).reverse

/-- The last element of `input.split(/(\|\||\||&&)/g)`: the text after the
last operator occurrence, scanning left to right with `||` tried before
`|`. -/
def lastOpSegment (cs : List Char) (acc : List Char) : List Char :=
  match cs with
  | '|' :: '|' :: rest => lastOpSegment rest []
  | '|' :: rest => lastOpSegment rest []
  | '&' :: '&' :: rest => lastOpSegment rest []
  | c :: rest => lastOpSegment rest (acc ++ [c])
  | [] => acc

/-- `isIncompleteInput(input)`: the four checks in source order. -/
def isIncompleteInput (input : List Char) : Bool :=
  if trim input = [] then false
  else if input.count '\'' % 2 ≠ 0 then true
  else if input.count '"' % 2 ≠ 0 then true
  else if trim (lastOpSegment input []) = [] then true
  else if ['\\'].isSuffixOf input && !(['\\', '\\'].isSuffixOf input) then true
  else false

/-- The sentence of the spec for `isIncomplete`, written as the four
independent checks it lists: false on an all-whitespace input, else true iff
the single-quote count is odd, or the double-quote count is odd, or the
trailing operator segment trims to empty, or the input ends in a single
unescaped backslash. -/
def spec_isIncomplete (input : List Char) : Bool :=
  if trim input = [] then false
  else
    (input.count '\'' % 2 == 1) || (input.count '"' % 2 == 1) ||
    (trim (lastOpSegment input []) == []) ||
    (['\\'].isSuffixOf input && !(['\\', '\\'].isSuffixOf input))

/-- `hasTailingWhitespace(input)`: the regex `/[^\\][ \t]$/m`, a non-backslash
character followed by a space or tab at the end of the string or just before
a newline. -/
def hasTailingWhitespace : List Char → Bool
  | a :: b :: rest =>
    ((a != '\\') && (b == ' ' || b == '\t') && (rest.isEmpty || rest.head? == some '\n'))
      || hasTailingWhitespace (b :: rest)
  | _ => false

/-! ## Tokenizer and autocomplete (`collectAutocompleteCandidates`) -/

/-- Quoting state of the tokenizer. -/
inductive QuoteMode | noQ | singleQ | doubleQ

/-- Modelled from the spec: the external shell-tokenizer collaborator
(`parse` of the shell-quote package) is not part of this repository's
sources.  Per the spec it splits a command-like string into
whitespace-separated, quote-resolved tokens: single quotes are literal,
double quotes allow backslash escapes, and a backslash escapes the next
character.  `cur` is the current token, reversed, `none` while between
tokens. -/
def parseTokens : List Char → QuoteMode → Option (List Char) → List (List Char)
  | [], _, none => []
  | [], _, some t => [t.reverse]
  | c :: rest, .noQ, cur =>
    if c == ' ' || c == '\t' || c == '\n' then
      match cur with
      | some t => t.reverse :: parseTokens rest .noQ none
      | none => parseTokens rest .noQ none
    else if c == '\'' then parseTokens rest .singleQ (some (cur.getD []))
    else if c == '"' then parseTokens rest .doubleQ (some (cur.getD []))
    else if c == '\\' then
      match rest with
      | d :: rest2 => parseTokens rest2 .noQ (some (d :: cur.getD []))
      | [] => parseTokens [] .noQ cur
    else parseTokens rest .noQ (some (c :: cur.getD []))
  | c :: rest, .singleQ, cur =>
    if c == '\'' then parseTokens rest .noQ (some (cur.getD []))
    else parseTokens rest .singleQ (some (c :: cur.getD []))
  | c :: rest, .doubleQ, cur =>
    if c == '"' then parseTokens rest .noQ (some (cur.getD []))
    else if c == '\\' then
      match rest with
      | d :: rest2 => parseTokens rest2 .doubleQ (some (d :: cur.getD []))
      | [] => parseTokens [] .doubleQ cur
    else parseTokens rest .doubleQ (some (c :: cur.getD []))

/-- Modelled from the spec: `tokenize(text)`, see `parseTokens`. -/
def parse (input : List Char) : List (List Char) :=
  parseTokens input .noQ none

/-- A provider callback: the pair `{fn, args}` of the source, with the fixed
arguments already applied to the function; a provider that throws is
`none`. -/
structure ProviderCallback where
  fn : Int → List (List Char) → Option (List (List Char))

/-- `collectAutocompleteCandidates(callbacks, input)`: the token index and
active expression are adjusted for empty and trailing-whitespace inputs, all
providers are folded over with a per-provider catch, and the concatenation is
filtered by `startsWith`. -/
def collectAutocompleteCandidates (callbacks : List ProviderCallback)
    (input : List Char) : List (List Char) :=
  let tokens := parse input
  let index0 : Int := (tokens.length : Int) - 1
  let expr0 : List Char := tokens.getLast?.getD []
  let ie : Int × List Char :=
    if trim input = [] then (0, [])
    else if hasTailingWhitespace input then (index0 + 1, [])
    else (index0, expr0)
  let all := callbacks.foldl
    (fun cands cb =>
      match cb.fn ie.1 tokens with
      | some r => cands ++ r
      | none => cands)
    []
  all.filter fun txt => ie.2.isPrefixOf txt

/-- The spec's active token index: 0 for an empty input, the token count on a
trailing whitespace, else the last token's index. -/
def activeTokenIndex (input : List Char) : Int :=
  if trim input = [] then 0
  else if hasTailingWhitespace input then ((parse input).length : Int)
  else ((parse input).length : Int) - 1

/-- The spec's active token text: empty for an empty or trailing-whitespace
input, else the last token. -/
def activeTokenText (input : List Char) : List Char :=
  if trim input = [] then []
  else if hasTailingWhitespace input then []
  else (parse input).getLast?.getD []

/-- The spec's description of candidate collection: every provider invoked
with the active index and the full token sequence, a failed provider
contributing nothing, the results concatenated in provider order and filtered
to those starting with the active token text. -/
def spec_collectCandidates (callbacks : List ProviderCallback)
    (input : List Char) : List (List Char) :=
  ((callbacks.map fun cb =>
      (cb.fn (activeTokenIndex input) (parse input)).getD []).flatten).filter
    fun txt => (activeTokenText input).isPrefixOf txt

/-! ## Shared fragment (`getSharedFragment`) -/

/-- Result of the `for` loop inside `getSharedFragment`: return `null`,
return the old fragment, or fall through to the recursive call. -/
inductive CheckResult | retNull | retOld | cont

/-- The loop body of `getSharedFragment`: for each candidate in order,
return `null` when it does not start with the old fragment, return the old
fragment when it does not start with the extended one. -/
def checkCandidates (oldF newF : List Char) : List (List Char) → CheckResult
  | [] => .cont
  | c :: rest =>
    if oldF.isPrefixOf c then
      if newF.isPrefixOf c then checkCandidates oldF newF rest
      else .retOld
    else .retNull

/-- The recursion of `getSharedFragment`, structural on a fuel.  Each
recursive call lengthens the fragment by one while `candidates[0]` is fixed,
so `candidates[0].length - fragment.length` bounds the recursion depth; the
wrapper passes exactly that, and the zero-fuel branch is unreachable (the
`cont` case implies the fragment is still shorter than `candidates[0]`).  An
empty candidate list is `none`, where the JavaScript `candidates[0].length`
throws. -/
def sharedAux : Nat → List Char → List (List Char) → Option (List Char)
  | fuel, fragment, candidates =>
    match candidates with
    | [] => none
    | c0 :: _ =>
      if c0.length ≤ fragment.length then some fragment
      else
        let newF := fragment ++ (c0.drop fragment.length).take 1
        match checkCandidates fragment newF candidates with
        | .retNull => none
        | .retOld => some fragment
        | .cont =>
          match fuel with
          | 0 => none
          | fuel' + 1 => sharedAux fuel' newF candidates

/-- `getSharedFragment(fragment, candidates)`. -/
def getSharedFragment (fragment : List Char) (candidates : List (List Char)) :
    Option (List Char) :=
  sharedAux ((candidates.headD []).length - fragment.length) fragment candidates

/-! ## Lemmas on the cursor walk -/

/-- Unfolding one iteration of the walk. -/
theorem colRowWalk_succ (m : Nat) (s : List Char) (n : Nat) :
    colRowWalk m s (n + 1) = colRowStep m (colRowWalk m s n) (charAt s n) := by
  unfold colRowWalk
  rw [List.range_succ, List.foldl_append]
  rfl

/-- Every step leaves the column at most `maxCols`. -/
theorem colRowStep_col_le (m : Nat) (rc : Nat × Nat) (chr : List Char) :
    (colRowStep m rc chr).2 ≤ m := by
  by_cases h1 : chr = ['\n']
  · simp [colRowStep, h1]
  · by_cases h2 : m < rc.2 + calcWidth chr
    · simp [colRowStep, h1, h2]
    · simp [colRowStep, h1, h2]; omega

/-- After any number of iterations the column is at most `maxCols`. -/
theorem colRowWalk_col_le (m : Nat) (s : List Char) (n : Nat) :
    (colRowWalk m s n).2 ≤ m := by
  cases n with
  | zero => exact Nat.zero_le m
  | succ n => rw [colRowWalk_succ]; exact colRowStep_col_le m _ _

/-- `charAt` past the end is the empty string. -/
theorem charAt_eq_nil_of_le (s : List Char) (i : Nat) (h : s.length ≤ i) :
    charAt s i = [] := by
  unfold charAt
  rw [List.getElem?_eq_none h]

/-- A step on the empty string is the identity once the column is in
range. -/
theorem colRowStep_nil (m : Nat) (rc : Nat × Nat) (h : rc.2 ≤ m) :
    colRowStep m rc [] = rc := by
  unfold colRowStep
  have : ¬ (([] : List Char) = ['\n']) := by simp
  rw [if_neg this]
  simp only [calcWidth, List.foldl_nil, Nat.add_zero]
  rw [if_neg (by omega)]

/-- Iterations past the end of the string change nothing. -/
theorem colRowWalk_stable (m : Nat) (s : List Char) (n : Nat) (h : s.length ≤ n) :
    colRowWalk m s n = colRowWalk m s s.length := by
  induction n, h using Nat.le_induction with
  | base => rfl
  | succ n hn ih =>
    rw [colRowWalk_succ, charAt_eq_nil_of_le s n hn,
      colRowStep_nil m _ (colRowWalk_col_le m s n), ih]

/-! ## Claims C1, C8, C10 -/

/-- C1 fails on the code: for the double-width character `中` crossing the
boundary at `maxCols = 2` after one column is used, the walk wraps and leaves
the column at 0 — the character's width is not carried to the new row, so the
column after processing it is 0, not 2 as the claim states. -/
theorem c1_counterexample :
    offsetToColRow ['a', '中'] 2 2 = (1, 0) ∧ (offsetToColRow ['a', '中'] 2 2).2 ≠ 2 := by
  constructor <;> decide

/-- C1 (amended): at the end of every character step of `offsetToColRow` the
column never exceeds `maxCols`; a character whose width would cross the
boundary has its width added first, and the ensuing wrap resets the column
to 0 and increments the row, discarding the character's width rather than
carrying it to the new row. -/
theorem c1_amended_wrap_resets_column :
    (∀ (input : List Char) (offset : Int) (m : Nat),
      (offsetToColRow input offset m).2 ≤ m) ∧
    (∀ (m : Nat) (rc : Nat × Nat) (c : Char), c ≠ '\n' → m < rc.2 + calcWidth [c] →
      colRowStep m rc [c] = (rc.1 + 1, 0)) := by
  constructor
  · intro input offset m
    exact colRowWalk_col_le m _ _
  · intro m rc c hc hcross
    unfold colRowStep
    rw [if_neg (by simp [hc])]
    simp only []
    rw [if_pos hcross]

/-- Witness for C1 (amended): the crossing step at a concrete input, and the
column bound evaluated there. -/
theorem c1_amended_witness :
    colRowStep 2 (0, 1) ['中'] = (1, 0) ∧ (offsetToColRow ['a', '中'] 2 2).2 ≤ 2 :=
  ⟨c1_amended_wrap_resets_column.2 2 (0, 1) '中' (by decide) (by decide),
   c1_amended_wrap_resets_column.1 ['a', '中'] 2 2⟩

/-- C8: `countLines` is the final row of `offsetToColRow` at the raw length
plus one, it is at least 1 for every input, and it is exactly 1 on the empty
string. -/
theorem c8_countLines_consistency :
    (∀ (input : List Char) (W : Nat),
      countLines input W = (offsetToColRow input input.length W).1 + 1 ∧
      1 ≤ countLines input W) ∧
    (∀ W : Nat, countLines [] W = 1) :=
  ⟨fun _ _ => ⟨rfl, Nat.succ_le_succ (Nat.zero_le _)⟩, fun _ => rfl⟩

/-- C10: `offsetToColRow` is total over all integer offsets and behaves as if
the effective offset were clamped: an offset at most the escape-length delta
yields `(0, 0)`, and an offset beyond the raw length gives the same result as
the raw length itself. -/
theorem c10_offsetToColRow_clamped :
    (∀ (input : List Char) (offset : Int) (m : Nat),
      offset - ((input.length : Int) - ((removeANSI input).length : Int)) ≤ 0 →
      offsetToColRow input offset m = (0, 0)) ∧
    (∀ (input : List Char) (offset : Int) (m : Nat),
      (input.length : Int) < offset →
      offsetToColRow input offset m = offsetToColRow input input.length m) := by
  constructor
  · intro input offset m h
    unfold offsetToColRow
    simp only []
    rw [Int.toNat_of_nonpos h]
    rfl
  · intro input offset m h
    unfold offsetToColRow
    simp only []
    rw [colRowWalk_stable m (removeANSI input)
        ((offset - ((input.length : Int) - ((removeANSI input).length : Int))).toNat)
        (by omega)]
    rw [colRowWalk_stable m (removeANSI input)
        (((input.length : Int) - ((input.length : Int) - ((removeANSI input).length : Int))).toNat)
        (by omega)]

/-- Witness for C10: both clamping behaviors at concrete inputs. -/
theorem c10_witness :
    offsetToColRow ['a', 'b'] (-5) 4 = (0, 0) ∧
    offsetToColRow ['a', 'b'] 10 4 = offsetToColRow ['a', 'b'] 2 4 := by
  constructor
  · exact c10_offsetToColRow_clamped.1 ['a', 'b'] (-5) 4 (by decide)
  · exact c10_offsetToColRow_clamped.2 ['a', 'b'] 10 4 (by decide)

/-! ## Lemmas on `removeANSI`, claims C5 and C7 -/

/-- The regex can only match where an escape character stands. -/
theorem ansiMatchLen_eq_none_of_head_ne (c : Char) (rest : List Char)
    (h : c ≠ '\x1B') : ansiMatchLen (c :: rest) = none := by
  cases rest with
  | nil => rfl
  | cons d rest2 => simp [ansiMatchLen, h]

/-- A string without the escape character is left unchanged, whatever the
fuel. -/
theorem removeANSIFuel_of_no_esc (fuel : Nat) (cs : List Char)
    (h : '\x1B' ∉ cs) : removeANSIFuel fuel cs = cs := by
  induction fuel generalizing cs with
  | zero => rfl
  | succ fuel ih =>
    cases cs with
    | nil => rfl
    | cons c rest =>
      have hc : c ≠ '\x1B' := fun hc => h (hc ▸ List.mem_cons_self c rest)
      have hr : '\x1B' ∉ rest := fun hr => h (List.mem_cons_of_mem c hr)
      simp [removeANSIFuel, ansiMatchLen_eq_none_of_head_ne c rest hc, ih rest hr]

/-- C5 fails on the code: removing the inner `ESC [ m` from
`ESC [ 1 ESC [ m m` splices together the new escape sequence `ESC [ 1 m`,
which a second application removes, so `removeANSI` is not idempotent. -/
theorem c5_counterexample :
    removeANSI (removeANSI ['\x1B', '[', '1', '\x1B', '[', 'm', 'm']) ≠
      removeANSI ['\x1B', '[', '1', '\x1B', '[', 'm', 'm'] := by decide

/-- C5 (amended): `removeANSI` is idempotent on every string whose stripped
form contains no escape character; in general a second application can remove
more, because deleting a match can splice the surrounding text into a new
match. -/
theorem c5_amended_idempotent_of_no_esc (s : List Char)
    (h : '\x1B' ∉ removeANSI s) :
    removeANSI (removeANSI s) = removeANSI s :=
  removeANSIFuel_of_no_esc (removeANSI s).length (removeANSI s) h

/-- Witness for C5 (amended) at a concrete escape-free input. -/
theorem c5_amended_witness :
    removeANSI (removeANSI ['a', 'b']) = removeANSI ['a', 'b'] :=
  c5_amended_idempotent_of_no_esc ['a', 'b'] (by decide)

/-- C7's failing input evaluated: the character class `[m|K]` of the source
regex contains the literal bar, so `ESC [ 3 1 |` is removed entirely, exactly
as the `m`-terminated sequence is, while a sequence with a genuinely
different terminator such as `x` is left unchanged.  The claim (and the
spec) say only `m` or `K` terminate a removed sequence. -/
theorem c7_bar_terminator_eval :
    removeANSI ['\x1B', '[', '3', '1', '|'] = [] ∧
    removeANSI ['\x1B', '[', '3', '1', 'm'] = [] ∧
    removeANSI ['\x1B', '[', '3', '1', 'x'] = ['\x1B', '[', '3', '1', 'x'] := by
  refine ⟨by decide, by decide, by decide⟩
/-! ## Claim C2 -/

/-- C2: `isIncompleteInput` returns false on an input that trims to empty and
otherwise is true exactly when the single-quote count is odd, or the
double-quote count is odd, or the trailing operator segment trims to empty,
or the input ends in a single unescaped backslash; with the four examples of
the claim. -/
theorem c2_isIncompleteInput_spec :
    (∀ input : List Char, isIncompleteInput input = spec_isIncomplete input) ∧
    isIncompleteInput ['e', 'c', 'h', 'o', ' ', '\'', 'h', 'e', 'l', 'l', 'o'] = true ∧
    isIncompleteInput ['e', 'c', 'h', 'o', ' ', 'h', 'e', 'l', 'l', 'o'] = false ∧
    isIncompleteInput ['e', 'c', 'h', 'o', ' ', 'a', ' ', '&', '&'] = true ∧
    isIncompleteInput ['e', 'c', 'h', 'o', ' ', 'a', ' ', '\\', '\\'] = false := by
  refine ⟨?_, by decide, by decide, by decide, by decide⟩
  intro input
  unfold isIncompleteInput spec_isIncomplete
  split_ifs <;> simp_all

/-! ## Claim C4 -/

/-- The catch-and-concatenate fold of `collectAutocompleteCandidates` is the
flattening of each provider's (possibly failing) contribution. -/
theorem foldl_collect (idx : Int) (toks : List (List Char))
    (cbs : List ProviderCallback) (acc : List (List Char)) :
    cbs.foldl
      (fun cands cb =>
        match cb.fn idx toks with
        | some r => cands ++ r
        | none => cands)
      acc
      = acc ++ (cbs.map fun cb => (cb.fn idx toks).getD []).flatten := by
  induction cbs generalizing acc with
  | nil => simp
  | cons cb t ih =>
    simp only [List.foldl_cons, List.map_cons, List.flatten_cons]
    cases h : cb.fn idx toks with
    | none => rw [ih]; simp [h]
    | some r => rw [ih]; simp [h, List.append_assoc]

/-- C4: `collectAutocompleteCandidates` invokes every provider with the
active token index and the full token sequence, a throwing provider
contributes nothing while the others still do, the results are concatenated
in provider order, and the concatenation is filtered to candidates starting
with the active token text; with the claim's three examples and a
failure-isolation example. -/
theorem c4_collect_spec :
    (∀ (callbacks : List ProviderCallback) (input : List Char),
      collectAutocompleteCandidates callbacks input =
        spec_collectCandidates callbacks input) ∧
    collectAutocompleteCandidates
        [⟨fun _ _ => some [['g', 'i', 't'], ['g', 'r', 'e', 'p'], ['g', 'o']]⟩] ['g'] =
      [['g', 'i', 't'], ['g', 'r', 'e', 'p'], ['g', 'o']] ∧
    collectAutocompleteCandidates
        [⟨fun _ _ => some [['g', 'i', 't'], ['g', 'r', 'e', 'p'], ['g', 'o']]⟩] ['g', 'i'] =
      [['g', 'i', 't']] ∧
    collectAutocompleteCandidates
        [⟨fun _ _ => some [['g', 'i', 't'], ['g', 'r', 'e', 'p'], ['g', 'o']]⟩] ['x'] =
      ([] : List (List Char)) ∧
    collectAutocompleteCandidates
        [⟨fun _ _ => none⟩,
         ⟨fun _ _ => some [['g', 'i', 't'], ['g', 'r', 'e', 'p'], ['g', 'o']]⟩] ['g'] =
      [['g', 'i', 't'], ['g', 'r', 'e', 'p'], ['g', 'o']] := by
  refine ⟨?_, by decide, by decide, by decide, by decide⟩
  intro callbacks input
  unfold collectAutocompleteCandidates spec_collectCandidates activeTokenIndex activeTokenText
  have he : ((parse input).length : Int) - 1 + 1 = ((parse input).length : Int) := by ring
  split_ifs with h1 h2
  · simp only [foldl_collect]; simp
  · simp only [foldl_collect, he]; simp
  · simp only [foldl_collect]; simp

/-! ## Lemmas on `getSharedFragment`, claims C3 and C6 -/

/-- Bridge from the boolean `isPrefixOf` of the source's `startsWith` to the
prefix order. -/
theorem isPrefixOf_eq (l₁ l₂ : List Char) : l₁.isPrefixOf l₂ ↔ l₁ <+: l₂ :=
  List.isPrefixOf_iff_prefix

/-- A take is a prefix. -/
theorem take_isPrefixOf (l : List Char) (n : Nat) : l.take n <+: l :=
  List.take_prefix n l

/-- The loop never returns `null` when every candidate starts with the old
fragment. -/
theorem check_ne_retNull (oldF newF : List Char) :
    ∀ cs : List (List Char), (∀ c ∈ cs, oldF <+: c) →
    checkCandidates oldF newF cs ≠ CheckResult.retNull := by
  intro cs
  induction cs with
  | nil => intro _ h; simp [checkCandidates] at h
  | cons c rest ih =>
    intro hall h
    have hc : oldF.isPrefixOf c := (isPrefixOf_eq _ _).mpr (hall c (List.mem_cons_self c rest))
    by_cases hn : newF.isPrefixOf c
    · rw [checkCandidates, if_pos hc, if_pos hn] at h
      exact ih (fun d hd => hall d (List.mem_cons_of_mem c hd)) h
    · rw [checkCandidates, if_pos hc, if_neg hn] at h
      exact CheckResult.noConfusion h

/-- Falling through the loop means every candidate starts with the extended
fragment. -/
theorem check_cont_imp (oldF newF : List Char) :
    ∀ cs : List (List Char), checkCandidates oldF newF cs = CheckResult.cont →
    ∀ c ∈ cs, newF <+: c := by
  intro cs
  induction cs with
  | nil => intro _ c hc; exact absurd hc (List.not_mem_nil c)
  | cons c rest ih =>
    intro h d hd
    by_cases ho : oldF.isPrefixOf c
    · by_cases hn : newF.isPrefixOf c
      · rw [checkCandidates, if_pos ho, if_pos hn] at h
        rcases List.mem_cons.mp hd with rfl | hd'
        · exact (isPrefixOf_eq _ _).mp hn
        · exact ih h d hd'
      · rw [checkCandidates, if_pos ho, if_neg hn] at h
        exact CheckResult.noConfusion h
    · rw [checkCandidates, if_neg ho] at h
      exact CheckResult.noConfusion h

/-- Returning the old fragment means some candidate does not start with the
extended fragment. -/
theorem check_retOld_imp (oldF newF : List Char) :
    ∀ cs : List (List Char), checkCandidates oldF newF cs = CheckResult.retOld →
    ∃ c ∈ cs, ¬ newF <+: c := by
  intro cs
  induction cs with
  | nil => intro h; exact absurd h (by simp [checkCandidates])
  | cons c rest ih =>
    intro h
    by_cases ho : oldF.isPrefixOf c
    · by_cases hn : newF.isPrefixOf c
      · rw [checkCandidates, if_pos ho, if_pos hn] at h
        obtain ⟨d, hd, hdn⟩ := ih h
        exact ⟨d, List.mem_cons_of_mem c hd, hdn⟩
      · exact ⟨c, List.mem_cons_self c rest, fun hp => hn ((isPrefixOf_eq _ _).mpr hp)⟩
    · rw [checkCandidates, if_neg ho] at h
      exact CheckResult.noConfusion h

/-- One unfolding of `sharedAux` on a non-empty candidate list. -/
theorem sharedAux_eq (fuel : Nat) (fragment c0 : List Char) (rest : List (List Char)) :
    sharedAux fuel fragment (c0 :: rest) =
      if c0.length ≤ fragment.length then some fragment
      else
        match checkCandidates fragment (fragment ++ (c0.drop fragment.length).take 1)
            (c0 :: rest) with
        | .retNull => none
        | .retOld => some fragment
        | .cont =>
          match fuel with
          | 0 => none
          | fuel' + 1 =>
            sharedAux fuel' (fragment ++ (c0.drop fragment.length).take 1) (c0 :: rest) := by
  rw [sharedAux.eq_def]

/-- With every candidate starting from the fragment and the fuel set to the
remaining length of the first candidate, `sharedAux` returns a longest
common prefix of the candidates. -/
theorem sharedAux_some (c0 : List Char) (rest : List (List Char)) :
    ∀ (fuel : Nat) (fragment : List Char), fuel = c0.length - fragment.length →
    (∀ c ∈ c0 :: rest, fragment <+: c) →
    ∃ r, sharedAux fuel fragment (c0 :: rest) = some r ∧
      (∀ c ∈ c0 :: rest, r <+: c) ∧
      (∀ p, (∀ c ∈ c0 :: rest, p <+: c) → p.length ≤ r.length) := by
  intro fuel
  induction fuel with
  | zero =>
    intro fragment hfuel hall
    have hlen : c0.length ≤ fragment.length := by
      have := (hall c0 (List.mem_cons_self c0 rest)).length_le
      omega
    refine ⟨fragment, by rw [sharedAux_eq, if_pos hlen], hall, ?_⟩
    intro p hp
    exact le_trans (hp c0 (List.mem_cons_self c0 rest)).length_le hlen
  | succ k ih =>
    intro fragment hfuel hall
    by_cases hlen : c0.length ≤ fragment.length
    · refine ⟨fragment, by rw [sharedAux_eq, if_pos hlen], hall, ?_⟩
      intro p hp
      exact le_trans (hp c0 (List.mem_cons_self c0 rest)).length_le hlen
    · push_neg at hlen
      have hfc0 : fragment <+: c0 := hall c0 (List.mem_cons_self c0 rest)
      have hfrag_take : fragment = c0.take fragment.length :=
        List.prefix_iff_eq_take.mp hfc0
      have hnewF_take : fragment ++ (c0.drop fragment.length).take 1 =
          c0.take (fragment.length + 1) := by
        rw [List.take_add c0 fragment.length 1, ← hfrag_take]
      have hnewF_len : (fragment ++ (c0.drop fragment.length).take 1).length =
          fragment.length + 1 := by
        rw [hnewF_take, List.length_take]; omega
      cases hres : checkCandidates fragment (fragment ++ (c0.drop fragment.length).take 1)
          (c0 :: rest) with
      | retNull => exact absurd hres (check_ne_retNull fragment _ (c0 :: rest) hall)
      | retOld =>
        refine ⟨fragment, ?_, hall, ?_⟩
        · rw [sharedAux_eq, if_neg (not_le.mpr hlen), hres]
        · intro p hp
          by_contra hlt
          push_neg at hlt
          obtain ⟨c, hc_mem, hc_not⟩ := check_retOld_imp fragment _ (c0 :: rest) hres
          apply hc_not
          have hpc0 : p <+: c0 := hp c0 (List.mem_cons_self c0 rest)
          have hnewF_p : fragment ++ (c0.drop fragment.length).take 1 <+: p := by
            rw [hnewF_take]
            exact List.prefix_of_prefix_length_le (take_isPrefixOf c0 _) hpc0
              (by rw [List.length_take]; omega)
          exact hnewF_p.trans (hp c hc_mem)
      | cont =>
        have hall' : ∀ c ∈ c0 :: rest, fragment ++ (c0.drop fragment.length).take 1 <+: c :=
          check_cont_imp fragment _ (c0 :: rest) hres
        have hk : k = c0.length - (fragment ++ (c0.drop fragment.length).take 1).length := by
          rw [hnewF_len]; omega
        obtain ⟨r, hr_eq, hr_com, hr_max⟩ := ih _ hk hall'
        refine ⟨r, ?_, hr_com, hr_max⟩
        rw [sharedAux_eq, if_neg (not_le.mpr hlen), hres]
        exact hr_eq

/-- Shared helper: on a non-empty candidate list all of whose elements start
with the fragment, `getSharedFragment` returns a longest common prefix. -/
theorem getShared_some (fragment c0 : List Char) (rest : List (List Char))
    (hall : ∀ c ∈ c0 :: rest, fragment <+: c) :
    ∃ r, getSharedFragment fragment (c0 :: rest) = some r ∧
      (∀ c ∈ c0 :: rest, r <+: c) ∧
      (∀ p, (∀ c ∈ c0 :: rest, p <+: c) → p.length ≤ r.length) :=
  sharedAux_some c0 rest (c0.length - fragment.length) fragment rfl hall

/-- C3: on a non-empty candidate list all of whose elements start with the
given fragment, `getSharedFragment` returns a longest common prefix of the
candidates: a common prefix no shorter than any other common prefix; with
the claim's two examples. -/
theorem c3_getSharedFragment_lcp :
    (∀ (fragment c0 : List Char) (rest : List (List Char)),
      (∀ c ∈ c0 :: rest, fragment <+: c) →
      ∃ r, getSharedFragment fragment (c0 :: rest) = some r ∧
        (∀ c ∈ c0 :: rest, r <+: c) ∧
        (∀ p, (∀ c ∈ c0 :: rest, p <+: c) → p.length ≤ r.length)) ∧
    getSharedFragment [] [['g', 'i', 't'], ['g', 'r', 'e', 'p']] = some ['g'] ∧
    getSharedFragment [] [['g', 'i', 't'], ['g', 'i', 't']] = some ['g', 'i', 't'] :=
  ⟨getShared_some, by decide, by decide⟩

/-- Witness for C3 at a concrete prefix and candidate list. -/
theorem c3_witness :
    ∃ r, getSharedFragment ['g'] [['g', 'i', 't'], ['g', 'r', 'e', 'p']] = some r ∧
      (∀ c ∈ [['g', 'i', 't'], ['g', 'r', 'e', 'p']], r <+: c) ∧
      (∀ p, (∀ c ∈ [['g', 'i', 't'], ['g', 'r', 'e', 'p']], p <+: c) →
        p.length ≤ r.length) :=
  c3_getSharedFragment_lcp.1 ['g'] ['g', 'i', 't'] [['g', 'r', 'e', 'p']] (by decide)

/-- C6 fails on the code: when the fragment is already at least as long as
the first candidate, `getSharedFragment` returns it unchecked, so a
mismatched candidate set yields a non-null result — here `ab` with the lone
candidate `a`, which does not start with `ab`. -/
theorem c6_counterexample :
    getSharedFragment ['x', 'y'] [['a']] = some ['x', 'y'] ∧
      ¬ (['x', 'y'] <+: ['a']) :=
  ⟨by decide, by decide⟩

/-- C6 (amended): on a non-empty candidate list, a `null` result implies
some candidate does not start with the original fragment (the converse
fails); with the claim's example. -/
theorem c6_amended_none_imp_mismatch :
    (∀ (fragment c0 : List Char) (rest : List (List Char)),
      getSharedFragment fragment (c0 :: rest) = none →
      ∃ c ∈ c0 :: rest, ¬ fragment <+: c) ∧
    getSharedFragment ['x'] [['g', 'i', 't']] = none := by
  refine ⟨?_, by decide⟩
  intro fragment c0 rest hnone
  by_contra hcon
  push_neg at hcon
  obtain ⟨r, hr, _, _⟩ := getShared_some fragment c0 rest hcon
  rw [hnone] at hr
  exact Option.noConfusion hr

/-- Witness for C6 (amended) at the claim's concrete input. -/
theorem c6_amended_witness :
    ∃ c ∈ [['g', 'i', 't']], ¬ ['x'] <+: c :=
  c6_amended_none_imp_mismatch.1 ['x'] ['g', 'i', 't'] [] (by decide)
/-! ## Lemmas on word boundaries, claim C9 -/

/-- `find?` on a strictly decreasing list returns the greatest element
satisfying the predicate. -/
theorem find_first_max {p : Nat → Bool} :
    ∀ {l : List Nat}, l.Pairwise (· > ·) → ∀ {x : Nat}, l.find? p = some x →
    x ∈ l ∧ p x ∧ ∀ y ∈ l, p y → y ≤ x := by
  intro l
  induction l with
  | nil => intro _ x h; exact absurd h (by simp)
  | cons a t ih =>
    intro hp x h
    by_cases hpa : p a
    · rw [List.find?_cons_of_pos _ hpa] at h
      obtain rfl : a = x := by injection h
      refine ⟨List.mem_cons_self a t, hpa, ?_⟩
      intro y hy _
      rcases List.mem_cons.mp hy with rfl | hy'
      · exact le_refl y
      · exact le_of_lt (List.rel_of_pairwise_cons hp hy')
    · rw [List.find?_cons_of_neg _ hpa] at h
      obtain ⟨hmem, hpx, hmax⟩ := ih (List.Pairwise.of_cons hp) h
      refine ⟨List.mem_cons_of_mem a hmem, hpx, ?_⟩
      intro y hy hpy
      rcases List.mem_cons.mp hy with rfl | hy'
      · exact absurd hpy hpa
      · exact hmax y hy' hpy

/-- `find?` on a strictly increasing list returns the least element
satisfying the predicate. -/
theorem find_first_min {p : Nat → Bool} :
    ∀ {l : List Nat}, l.Pairwise (· < ·) → ∀ {x : Nat}, l.find? p = some x →
    x ∈ l ∧ p x ∧ ∀ y ∈ l, p y → x ≤ y := by
  intro l
  induction l with
  | nil => intro _ x h; exact absurd h (by simp)
  | cons a t ih =>
    intro hp x h
    by_cases hpa : p a
    · rw [List.find?_cons_of_pos _ hpa] at h
      obtain rfl : a = x := by injection h
      refine ⟨List.mem_cons_self a t, hpa, ?_⟩
      intro y hy _
      rcases List.mem_cons.mp hy with rfl | hy'
      · exact le_refl y
      · exact le_of_lt (List.rel_of_pairwise_cons hp hy')
    · rw [List.find?_cons_of_neg _ hpa] at h
      obtain ⟨hmem, hpx, hmax⟩ := ih (List.Pairwise.of_cons hp) h
      refine ⟨List.mem_cons_of_mem a hmem, hpx, ?_⟩
      intro y hy hpy
      rcases List.mem_cons.mp hy with rfl | hy'
      · exact absurd hpy hpa
      · exact hmax y hy' hpy

/-- The run starts are strictly increasing. -/
theorem wordStarts_sorted (input : List Char) :
    (wordStarts input).Pairwise (· < ·) :=
  (List.pairwise_lt_range input.length).filter _

/-- The run ends are strictly increasing. -/
theorem wordEnds_sorted (input : List Char) :
    (wordEnds input).Pairwise (· < ·) :=
  (List.pairwise_lt_range (input.length + 1)).filter _

/-- Run starts are in range. -/
theorem wordStarts_lt (input : List Char) (x : Nat) (h : x ∈ wordStarts input) :
    x < input.length :=
  List.mem_range.mp (List.mem_of_mem_filter h)

/-- Run ends are in range. -/
theorem wordEnds_le (input : List Char) (x : Nat) (h : x ∈ wordEnds input) :
    x ≤ input.length :=
  Nat.lt_succ_iff.mp (List.mem_range.mp (List.mem_of_mem_filter h))

/-- C9: `closestLeftBoundary` returns the greatest run start strictly below
the offset, or 0 when there is none; `closestRightBoundary` returns the
least run end strictly above the offset, or the input's length when there is
none; both results always lie within `[0, length]`. -/
theorem c9_closest_boundaries :
    ∀ (input : List Char) (offset : Int),
      (closestLeftBoundary input offset ≤ input.length ∧
       closestRightBoundary input offset ≤ input.length) ∧
      ((closestLeftBoundary input offset ∈ wordStarts input ∧
        ((closestLeftBoundary input offset : Int) < offset) ∧
        ∀ x ∈ wordStarts input, (x : Int) < offset →
          x ≤ closestLeftBoundary input offset) ∨
       ((∀ x ∈ wordStarts input, ¬ ((x : Int) < offset)) ∧
        closestLeftBoundary input offset = 0)) ∧
      ((closestRightBoundary input offset ∈ wordEnds input ∧
        (offset < (closestRightBoundary input offset : Int)) ∧
        ∀ x ∈ wordEnds input, offset < (x : Int) →
          closestRightBoundary input offset ≤ x) ∨
       ((∀ x ∈ wordEnds input, ¬ (offset < (x : Int))) ∧
        closestRightBoundary input offset = input.length)) := by
  intro input offset
  have hL : closestLeftBoundary input offset =
      (((wordStarts input).reverse.find? fun (x : Nat) =>
        decide ((x : Int) < offset)).getD 0) := rfl
  have hR : closestRightBoundary input offset =
      (((wordEnds input).find? fun (x : Nat) =>
        decide (offset < (x : Int))).getD input.length) := rfl
  have left : (closestLeftBoundary input offset ∈ wordStarts input ∧
        ((closestLeftBoundary input offset : Int) < offset) ∧
        ∀ x ∈ wordStarts input, (x : Int) < offset →
          x ≤ closestLeftBoundary input offset) ∨
       ((∀ x ∈ wordStarts input, ¬ ((x : Int) < offset)) ∧
        closestLeftBoundary input offset = 0) := by
    cases hf : (wordStarts input).reverse.find? fun (x : Nat) =>
        decide ((x : Int) < offset) with
    | none =>
      refine Or.inr ⟨?_, by rw [hL, hf]; rfl⟩
      intro x hx
      have := List.find?_eq_none.mp hf x (List.mem_reverse.mpr hx)
      simpa using this
    | some v =>
      have hrev : ((wordStarts input).reverse).Pairwise (· > ·) :=
        List.pairwise_reverse.mpr (wordStarts_sorted input)
      obtain ⟨hmem, hpv, hmax⟩ := find_first_max hrev hf
      have hv : closestLeftBoundary input offset = v := by rw [hL, hf]; rfl
      refine Or.inl ⟨?_, ?_, ?_⟩
      · rw [hv]; exact List.mem_reverse.mp hmem
      · rw [hv]; simpa using hpv
      · intro x hx hxo
        rw [hv]
        exact hmax x (List.mem_reverse.mpr hx) (by simpa using hxo)
  have right : (closestRightBoundary input offset ∈ wordEnds input ∧
        (offset < (closestRightBoundary input offset : Int)) ∧
        ∀ x ∈ wordEnds input, offset < (x : Int) →
          closestRightBoundary input offset ≤ x) ∨
       ((∀ x ∈ wordEnds input, ¬ (offset < (x : Int))) ∧
        closestRightBoundary input offset = input.length) := by
    cases hf : (wordEnds input).find? fun (x : Nat) => decide (offset < (x : Int)) with
    | none =>
      refine Or.inr ⟨?_, by rw [hR, hf]; rfl⟩
      intro x hx
      have := List.find?_eq_none.mp hf x hx
      simpa using this
    | some v =>
      obtain ⟨hmem, hpv, hmin⟩ := find_first_min (wordEnds_sorted input) hf
      have hv : closestRightBoundary input offset = v := by rw [hR, hf]; rfl
      refine Or.inl ⟨?_, ?_, ?_⟩
      · rw [hv]; exact hmem
      · rw [hv]; simpa using hpv
      · intro x hx hxo
        rw [hv]
        exact hmin x hx (by simpa using hxo)
  refine ⟨⟨?_, ?_⟩, left, right⟩
  · rcases left with ⟨hmem, _, _⟩ | ⟨_, hz⟩
    · exact le_of_lt (wordStarts_lt input _ hmem)
    · rw [hz]; exact Nat.zero_le _
  · rcases right with ⟨hmem, _, _⟩ | ⟨_, hz⟩
    · exact wordEnds_le input _ hmem
    · rw [hz]

/-- Witness for C9: the bounds at a concrete input and offset. -/
theorem c9_witness :
    closestLeftBoundary ['a', 'b', ' ', 'c'] 3 ≤ 4 ∧
    closestRightBoundary ['a', 'b', ' ', 'c'] 1 ≤ 4 :=
  ⟨(c9_closest_boundaries ['a', 'b', ' ', 'c'] 3).1.1,
   (c9_closest_boundaries ['a', 'b', ' ', 'c'] 1).1.2⟩
/-! ## Fuel irrelevance

The two fuel-based definitions are an implementation device for structural
recursion; the following theorems show the fuel does not affect the result,
so the embeddings compute the same function as the source's unbounded
scans. -/

/-- Any successful regex match consumes at least the two characters
`ESC [`. -/
theorem ansiMatchLen_two_le (cs : List Char) (L : Nat)
    (h : ansiMatchLen cs = some L) : 2 ≤ L := by
  match cs, h with
  | [], h => simp [ansiMatchLen] at h
  | [c], h => simp [ansiMatchLen] at h
  | c :: d :: rest, h =>
    by_cases hc : (c == '\x1B' && d == '[') = true
    · simp only [ansiMatchLen, hc, if_true] at h
      cases ho : ((mainLen rest).orElse (fun _ => termLen rest)) with
      | none => rw [ho] at h; simp at h
      | some k => rw [ho] at h; simp at h; omega
    · simp [ansiMatchLen, hc] at h

/-- Stripping the empty string needs no fuel. -/
theorem removeANSIFuel_nil (fuel : Nat) : removeANSIFuel fuel [] = [] := by
  cases fuel <;> rfl

/-- Any two sufficient fuels give the same stripped string. -/
theorem removeANSIFuel_congr :
    ∀ (n : Nat) (cs : List Char), cs.length ≤ n →
    ∀ (f₁ f₂ : Nat), cs.length ≤ f₁ → cs.length ≤ f₂ →
    removeANSIFuel f₁ cs = removeANSIFuel f₂ cs := by
  intro n
  induction n with
  | zero =>
    intro cs hn f₁ f₂ _ _
    have : cs = [] := List.length_eq_zero.mp (Nat.le_zero.mp hn)
    subst this
    rw [removeANSIFuel_nil, removeANSIFuel_nil]
  | succ n ih =>
    intro cs hn f₁ f₂ h₁ h₂
    cases cs with
    | nil => rw [removeANSIFuel_nil, removeANSIFuel_nil]
    | cons c rest =>
      obtain ⟨g₁, rfl⟩ : ∃ g, f₁ = g + 1 :=
        ⟨f₁ - 1, by simp only [List.length_cons] at h₁; omega⟩
      obtain ⟨g₂, rfl⟩ : ∃ g, f₂ = g + 1 :=
        ⟨f₂ - 1, by simp only [List.length_cons] at h₂; omega⟩
      simp only [List.length_cons] at hn h₁ h₂
      show removeANSIFuel (g₁ + 1) (c :: rest) = removeANSIFuel (g₂ + 1) (c :: rest)
      rw [removeANSIFuel, removeANSIFuel]
      cases hm : ansiMatchLen (c :: rest) with
      | some L =>
        have hL : 2 ≤ L := ansiMatchLen_two_le _ L hm
        have hdrop : (List.drop L (c :: rest)).length = rest.length + 1 - L := by
          rw [List.length_drop, List.length_cons]
        exact ih (List.drop L (c :: rest)) (by omega) g₁ g₂ (by omega) (by omega)
      | none =>
        have := ih rest (by omega) g₁ g₂ (by omega) (by omega)
        rw [this]

/-- The wrapper's fuel (the input's length) is sufficient: `removeANSI`
computes the unbounded left-to-right scan. -/
theorem removeANSIFuel_stable (fuel : Nat) (cs : List Char)
    (h : cs.length ≤ fuel) : removeANSIFuel fuel cs = removeANSI cs :=
  removeANSIFuel_congr cs.length cs le_rfl fuel cs.length h le_rfl

/-- Extending the fragment by one character from `candidates[0]` lengthens
it by exactly one while it is shorter than `candidates[0]`. -/
theorem newFragment_length (fragment c0 : List Char)
    (h : fragment.length < c0.length) :
    (fragment ++ (c0.drop fragment.length).take 1).length = fragment.length + 1 := by
  rw [List.length_append, List.length_take, List.length_drop]
  omega

/-- With the fuel at `candidates[0].length - fragment.length` — what the
wrapper passes — any extra fuel is never consumed, so the recursion of
`getSharedFragment` matches the source's unbounded recursion. -/
theorem sharedAux_fuel_irrelevant (c0 : List Char) (rest : List (List Char)) :
    ∀ (fuel : Nat) (fragment : List Char) (extra : Nat),
    fuel = c0.length - fragment.length →
    sharedAux (fuel + extra) fragment (c0 :: rest) =
      sharedAux fuel fragment (c0 :: rest) := by
  intro fuel
  induction fuel with
  | zero =>
    intro fragment extra hfuel
    have hlen : c0.length ≤ fragment.length := by omega
    rw [sharedAux_eq, sharedAux_eq, if_pos hlen, if_pos hlen]
  | succ k ih =>
    intro fragment extra hfuel
    by_cases hlen : c0.length ≤ fragment.length
    · rw [sharedAux_eq, sharedAux_eq, if_pos hlen, if_pos hlen]
    · push_neg at hlen
      rw [sharedAux_eq, sharedAux_eq, if_neg (not_le.mpr hlen), if_neg (not_le.mpr hlen)]
      cases hres : checkCandidates fragment (fragment ++ (c0.drop fragment.length).take 1)
          (c0 :: rest) with
      | retNull => rfl
      | retOld => rfl
      | cont =>
        have hplus : k + 1 + extra = (k + extra) + 1 := by omega
        rw [hplus]
        show sharedAux (k + extra) (fragment ++ (c0.drop fragment.length).take 1)
            (c0 :: rest) =
          sharedAux k (fragment ++ (c0.drop fragment.length).take 1) (c0 :: rest)
        exact ih _ extra (by rw [newFragment_length fragment c0 hlen]; omega)
